import Mathlib

/-!
Shallow embedding of `dropbox_comcut_restore.py` (double16/dropbox-media-utils).

Modelling conventions:
* Python strings (filesystem and remote paths) are `List Char`.
* A Dropbox revision entry is the `Revision` structure: its `server_modified`
  timestamp is an integer (only its ordering matters), its `size` a natural
  number of bytes, its `rev` identifier an opaque `String`.
* The Python float literals `1.07`, `1.1`, `0.8`, `1.8` used for the size
  thresholds are embedded as the exact rationals `107/100`, `11/10`, `8/10`,
  `18/10`; all size comparisons are carried out in `ℚ`.
* `list index out of range` failures are made explicit: `find_precut_revision`
  returns `Except String (Option Revision)`, erring exactly where the Python
  code would raise `IndexError` (reading `revisions[0]` of an empty history).
* Remote I/O (the `dbx` client) is abstracted as an oracle `RemoteOps`; the
  orchestrator loop returns the trace of remote calls it performs, so that
  frame/error-handling properties are statements about that trace.
-/

/-- One entry of `dbx.files_list_revisions(path).entries`. -/
structure Revision where
  server_modified : Int
  size : Nat
  rev : String
deriving DecidableEq, Repr

/-! ## String helpers used by the CLI

`str.replace(old, new)` in Python replaces every non-overlapping occurrence of
`old`, scanning left to right.  (For `old = ""` Python inserts `new` at every
position; the CLI guarantees `media_base` is non-empty — `--dir` is required
and a lone trailing slash is stripped — so that case is unreachable and our
embedding leaves the string unchanged there.)  The counter argument of
`pyReplaceGo` is the number of characters of a just-matched occurrence still to
be consumed, so scanning resumes after the occurrence, never inside it. -/
def pyReplaceGo (pat rep : List Char) : Nat → List Char → List Char
  | _, [] => []
  | Nat.succ k, _ :: rest => pyReplaceGo pat rep k rest
  | 0, c :: rest =>
    if pat.isPrefixOf (c :: rest) ∧ pat ≠ [] then
      rep ++ pyReplaceGo pat rep (pat.length - 1) rest
    else
      c :: pyReplaceGo pat rep 0 rest

def pyReplace (pat rep s : List Char) : List Char :=
  pyReplaceGo pat rep 0 s

/-- Whether `pat` occurs as a contiguous run inside `s` (Python `old in s`). -/
def occursIn (pat : List Char) : List Char → Bool
  | [] => pat.isPrefixOf []
  | c :: rest => pat.isPrefixOf (c :: rest) || occursIn pat rest

/-- `os.path.basename`: the part of the path after the last `/`. -/
def basename (p : List Char) : List Char :=
  (p.reverse.takeWhile (fun c => c ≠ '/')).reverse

/-- Index (from 0) of the last occurrence of `ch` in `s`, `none` if absent
(`str.rfind` with `-1` mapped to `none`). -/
def lastIndexOf (ch : Char) (s : List Char) : Option Nat :=
  (s.foldl (fun (acc : Option Nat × Nat) c =>
    (if c = ch then some acc.2 else acc.1, acc.2 + 1)) (none, 0)).1

/-- The root part of `os.path.splitext(p)`: everything before the extension.
The extension starts at the last `.` that lies after the last `/` and is
preceded (within the final component) by at least one non-dot character —
leading dots of a hidden file never start an extension. -/
def splitext_root (p : List Char) : List Char :=
  let sepIdx : Int := (lastIndexOf '/' p).elim (-1) (fun n => (n : Int))
  match lastIndexOf '.' p with
  | none => p
  | some dotIdx =>
    if (dotIdx : Int) > sepIdx ∧
        (((p.drop (sepIdx + 1).toNat).take ((dotIdx : Int) - sepIdx - 1).toNat).any
          (fun c => c ≠ '.')) then
      p.take dotIdx
    else
      p

/-- `replace_extension` (line 30): `os.path.splitext(path)[0] + '.' + new_extension`.
The Python `None` guard is unreachable here since all modelled paths exist. -/
def replace_extension (path : List Char) (new_extension : List Char) : List Char :=
  splitext_root path ++ '.' :: new_extension

/-! ## File classifier -/

/-- `VIDEO_EXTENSIONS` (line 46). -/
def VIDEO_EXTENSIONS : List (List Char) :=
  [['m', 'k', 'v'], ['t', 's'], ['m', 'p', '4'], ['m', 'o', 'v']]

/-- `is_video_file` (lines 49-53): reject Apple `._` metadata files, then
accept iff the path ends in `.` followed by one of the recognized extensions. -/
def is_video_file (filepath : List Char) : Bool :=
  if (['.', '_']).isPrefixOf (basename filepath) then
    false
  else
    !(VIDEO_EXTENSIONS.filter (fun e => ('.' :: e).isSuffixOf filepath)).isEmpty

/-- `generate_files`, direct-file branch (lines 92-94): a path given directly
as an argument and naming a regular file is yielded iff `is_video_file`. -/
def yields_direct_file (media_path : List Char) : Bool :=
  is_video_file media_path

/-- `generate_files`, traversal branch (lines 95-101): a file discovered by
`os.walk` is yielded iff its name does not start with `.` and `is_video_file`. -/
def yields_walked_file (filepath : List Char) : Bool :=
  !(['.']).isPrefixOf (basename filepath) && is_video_file filepath

/-! ## Revision selector -/

/-- Insert one revision into a list already sorted by `server_modified`
descending, keeping it before entries with an equal timestamp. -/
def insertRevDesc (r : Revision) : List Revision → List Revision
  | [] => [r]
  | x :: xs =>
    if x.server_modified ≤ r.server_modified then r :: x :: xs
    else x :: insertRevDesc r xs

/-- `sorted(entries, key=server_modified, reverse=True)` (line 58): the stable
descending sort by timestamp.  Any stable sorting algorithm computes the same
list, so insertion sort is a faithful model of Python's `sorted`. -/
def sortRevisions : List Revision → List Revision
  | [] => []
  | r :: rs => insertRevDesc r (sortRevisions rs)

/-- The `break` condition of line 70: a cutoff is configured and the revision
predates it (a `datetime` is always truthy in Python). -/
def cutoffFired (no_older_than_time : Option Int) (rev : Revision) : Bool :=
  match no_older_than_time with
  | some t => decide (rev.server_modified < t)
  | none => false

/-- The `for rev in revisions[1:]` loop of lines 69-87, with the two logging
accumulators dropped (they do not feed the returned value). -/
def findLoop (target_size stop_size_sm stop_size_lg : ℚ)
    (no_older_than_time : Option Int) : List Revision → Option Revision
  | [] => none
  | rev :: rest =>
    if cutoffFired no_older_than_time rev then none
    else if (rev.size : ℚ) > stop_size_lg then none
    else if (rev.size : ℚ) > target_size then some rev
    else if (rev.size : ℚ) < stop_size_sm then none
    else findLoop target_size stop_size_sm stop_size_lg no_older_than_time rest

/-- `target_size` (lines 62-65). -/
def target_size_calc (latest_size : ℚ) (has_been_cut : Bool) : ℚ :=
  if has_been_cut then latest_size * (107 / 100) else latest_size * (11 / 10)

/-- `find_precut_revision` (lines 56-87).  The caller's `dbx` call is factored
out: `entries` is what `files_list_revisions(path, limit=30).entries` returned.
Reading `revisions[0].size` of an empty history raises `IndexError`, modelled
as the `Except.error` branch. -/
def find_precut_revision (entries : List Revision) (has_been_cut : Bool)
    (no_older_than_time : Option Int) : Except String (Option Revision) :=
  match sortRevisions entries with
  | [] => Except.error "list index out of range"
  | latest :: rest =>
    Except.ok (findLoop (target_size_calc (latest.size : ℚ) has_been_cut)
      ((latest.size : ℚ) * (8 / 10)) ((latest.size : ℚ) * (18 / 10))
      no_older_than_time rest)

example : find_precut_revision
    [⟨10, 1000, "c"⟩, ⟨9, 1150, "b"⟩, ⟨8, 900, "a"⟩] false none =
    Except.ok (some ⟨9, 1150, "b"⟩) := by
  norm_num [find_precut_revision, sortRevisions, insertRevDesc, findLoop,
    target_size_calc, cutoffFired]

/-! ## Restore orchestrator (`comcut_restore_cli`, lines 141-167)

The Dropbox client is abstracted as an oracle `RemoteOps`: what each remote
call would return.  A raised `ApiError` is the `some detail` value of
`restore_result` / `delete_result`.  The orchestrator loop is modelled as a
function returning the exit code together with the trace of remote calls it
issues; local-filesystem work (reading the companion `.edl` file) is abstracted
into the per-candidate `has_been_cut` flag. -/

/-- One remote call issued against the Dropbox client. -/
inductive RemoteCall where
  | list_revisions (path : List Char)
  | restore (path : List Char) (rev : String)
  | delete (path : List Char)
deriving DecidableEq, Repr

/-- Oracle for the remote service: the revision entries each listing returns,
and whether each mutation raises `ApiError` (`some detail`) or succeeds. -/
structure RemoteOps where
  list_entries : List Char → List Revision
  restore_result : List Char → String → Option String
  delete_result : List Char → Option String

/-- The fixed remote root every derived path starts from (line 148). -/
def mediaRootChars : List Char := ['/', 'M', 'e', 'd', 'i', 'a']

/-- Line 148: `video_filepath.replace(media_base, '/Media')`. -/
def derive_dropbox_path (media_base video_filepath : List Char) : List Char :=
  pyReplace media_base mediaRootChars video_filepath

/-- Lines 153-166: the restore call and the two best-effort deletions.  A
restore `ApiError` is caught at line 164, so the deletions are skipped but
nothing propagates; each deletion's `ApiError` is caught by its own inner
handler (lines 158, 162), so both deletions are always attempted after a
successful restore, whatever they return. -/
def restore_and_cleanup (ops : RemoteOps) (dropbox_path : List Char)
    (uncut_rev : Revision) : List RemoteCall :=
  match ops.restore_result dropbox_path uncut_rev.rev with
  | some _ => [RemoteCall.restore dropbox_path uncut_rev.rev]
  | none =>
    [RemoteCall.restore dropbox_path uncut_rev.rev,
     RemoteCall.delete (replace_extension dropbox_path ['e', 'd', 'l']),
     RemoteCall.delete (replace_extension dropbox_path ['b', 'a', 'k', '.', 'e', 'd', 'l'])]

/-- Lines 142-166, one iteration of the candidate loop: derive the remote
path, list and select, and when a revision is selected and dry-run is off,
restore and clean up.  Only a selector `IndexError` escapes (nothing in the
loop catches it); every `ApiError` is handled inside `restore_and_cleanup`. -/
def process_one (ops : RemoteOps) (dry_run : Bool) (media_base : List Char)
    (no_older_than_time : Option Int) (cand : List Char × Bool) :
    Except String (List RemoteCall) :=
  let dropbox_path := derive_dropbox_path media_base cand.1
  match find_precut_revision (ops.list_entries dropbox_path) cand.2 no_older_than_time with
  | Except.error e => Except.error e
  | Except.ok none => Except.ok [RemoteCall.list_revisions dropbox_path]
  | Except.ok (some r) =>
    Except.ok (RemoteCall.list_revisions dropbox_path ::
      (if dry_run then [] else restore_and_cleanup ops dropbox_path r))

/-- The whole `for video_filepath in generate_files(args)` loop plus the final
`return 0` (lines 142-167): candidates are the classifier's output paired with
their `has_been_cut` flags.  The result is the exit code and the remote-call
trace; an uncaught `IndexError` aborts the batch as `Except.error`. -/
def comcut_restore_loop (ops : RemoteOps) (dry_run : Bool) (media_base : List Char)
    (no_older_than_time : Option Int) :
    List (List Char × Bool) → Except String (Nat × List RemoteCall)
  | [] => Except.ok (0, [])
  | c :: cs =>
    match process_one ops dry_run media_base no_older_than_time c with
    | Except.error e => Except.error e
    | Except.ok tr =>
      match comcut_restore_loop ops dry_run media_base no_older_than_time cs with
      | Except.error e => Except.error e
      | Except.ok (code, tr2) => Except.ok (code, tr ++ tr2)

/-! ## Lemmas: the stable descending sort -/

/-- Newest-first order: every entry's timestamp is at least its successor's. -/
def descSorted (rs : List Revision) : Prop :=
  List.Chain' (fun a b => b.server_modified ≤ a.server_modified) rs

theorem insertRevDesc_ne_nil (r : Revision) (l : List Revision) :
    insertRevDesc r l ≠ [] := by
  cases l with
  | nil => simp [insertRevDesc]
  | cons x xs =>
    simp only [insertRevDesc]
    split <;> simp

theorem sortRevisions_eq_nil_iff (rs : List Revision) :
    sortRevisions rs = [] ↔ rs = [] := by
  cases rs with
  | nil => simp [sortRevisions]
  | cons r t => simp [sortRevisions, insertRevDesc_ne_nil]

theorem mem_insertRevDesc (y r : Revision) (l : List Revision) :
    y ∈ insertRevDesc r l ↔ y = r ∨ y ∈ l := by
  induction l with
  | nil => simp [insertRevDesc]
  | cons x xs ih =>
    simp only [insertRevDesc]
    split
    · simp [List.mem_cons]
    · simp only [List.mem_cons, ih]
      tauto

theorem mem_sortRevisions (y : Revision) (rs : List Revision) :
    y ∈ sortRevisions rs ↔ y ∈ rs := by
  induction rs with
  | nil => simp [sortRevisions]
  | cons r t ih => simp [sortRevisions, mem_insertRevDesc, ih]

theorem sortRevisions_eq_of_sorted {rs : List Revision} (h : descSorted rs) :
    sortRevisions rs = rs := by
  induction rs with
  | nil => rfl
  | cons r t ih =>
    have ht : descSorted t := h.tail
    simp only [sortRevisions, ih ht]
    cases t with
    | nil => rfl
    | cons x xs =>
      have hx : x.server_modified ≤ r.server_modified := (List.chain'_cons.mp h).1
      simp [insertRevDesc, hx]

/-! ## Lemmas: the selection walk -/

theorem findLoop_cons (t sm lg : ℚ) (co : Option Int) (rev : Revision)
    (rest : List Revision) :
    findLoop t sm lg co (rev :: rest) =
      if cutoffFired co rev then none
      else if (rev.size : ℚ) > lg then none
      else if (rev.size : ℚ) > t then some rev
      else if (rev.size : ℚ) < sm then none
      else findLoop t sm lg co rest := rfl

/-- No branch of the loop body fires on `x`: the cutoff does not apply to it
and its size is inside all three strict thresholds. -/
def noFire (t sm lg : ℚ) (co : Option Int) (x : Revision) : Prop :=
  cutoffFired co x = false ∧ ¬((x.size : ℚ) > lg) ∧ ¬((x.size : ℚ) > t) ∧
    ¬((x.size : ℚ) < sm)

theorem findLoop_skip {t sm lg : ℚ} {co : Option Int} {x : Revision}
    {l : List Revision} (hx : noFire t sm lg co x) :
    findLoop t sm lg co (x :: l) = findLoop t sm lg co l := by
  simp [findLoop_cons, hx.1, hx.2.1, hx.2.2.1, hx.2.2.2]

theorem findLoop_append {t sm lg : ℚ} {co : Option Int} {pre l : List Revision}
    (h : ∀ x ∈ pre, noFire t sm lg co x) :
    findLoop t sm lg co (pre ++ l) = findLoop t sm lg co l := by
  induction pre with
  | nil => rfl
  | cons x xs ih =>
    rw [List.cons_append, findLoop_skip (h x (by simp))]
    exact ih (fun y hy => h y (by simp [hy]))

theorem findLoop_eq_none {t sm lg : ℚ} {co : Option Int} {l : List Revision}
    (h : ∀ x ∈ l, ¬((x.size : ℚ) > lg) ∧ ¬((x.size : ℚ) > t) ∧
      ¬((x.size : ℚ) < sm)) :
    findLoop t sm lg co l = none := by
  induction l with
  | nil => rfl
  | cons x xs ih =>
    rw [findLoop_cons]
    by_cases hc : cutoffFired co x
    · simp [hc]
    · have hx := h x (by simp)
      simp [hc, hx.1, hx.2.1, hx.2.2,
        ih (fun y hy => h y (by simp [hy]))]

/-- How the three thresholds computed from a baseline of `L` bytes relate:
`stop_size_sm ≤ target_size`, `target_size ≤ stop_size_lg`, and the baseline
itself sits between `stop_size_sm` and `target_size`. -/
theorem threshold_bounds (L : Nat) (cut : Bool) :
    (L : ℚ) * (8 / 10) ≤ target_size_calc (L : ℚ) cut ∧
    target_size_calc (L : ℚ) cut ≤ (L : ℚ) * (18 / 10) ∧
    (L : ℚ) * (8 / 10) ≤ (L : ℚ) ∧
    (L : ℚ) ≤ target_size_calc (L : ℚ) cut ∧
    (L : ℚ) * (8 / 10) ≤ (L : ℚ) * (18 / 10) := by
  have hL : (0 : ℚ) ≤ (L : ℚ) := Nat.cast_nonneg L
  have ht : target_size_calc (L : ℚ) cut = (L : ℚ) * (107 / 100) ∨
      target_size_calc (L : ℚ) cut = (L : ℚ) * (11 / 10) := by
    cases cut
    · right; simp [target_size_calc]
    · left; simp [target_size_calc]
  rcases ht with h | h <;> refine ⟨?_, ?_, ?_, ?_, ?_⟩ <;>
    nlinarith [hL, h.le, h.ge]

/-! ## Claims about the revision selector -/

/-- C1: for a non-empty history sorted newest-first with no cutoff configured,
if the walk from the second entry onward reaches a revision whose size
strictly exceeds `target_size` (`latest_size × 1.07` when already cut,
`latest_size × 1.10` otherwise) before any stop condition fires, the selector
returns exactly that revision — the most recent post-baseline revision whose
size strictly exceeds `target_size`. -/
theorem C1_first_size_jump_returned (latest r : Revision)
    (pre post : List Revision) (cut : Bool)
    (hsorted : descSorted (latest :: (pre ++ r :: post)))
    (hpre : ∀ x ∈ pre,
      ¬((x.size : ℚ) > (latest.size : ℚ) * (18 / 10)) ∧
      ¬((x.size : ℚ) > target_size_calc (latest.size : ℚ) cut) ∧
      ¬((x.size : ℚ) < (latest.size : ℚ) * (8 / 10)))
    (hlg : ¬((r.size : ℚ) > (latest.size : ℚ) * (18 / 10)))
    (htgt : (r.size : ℚ) > target_size_calc (latest.size : ℚ) cut) :
    find_precut_revision (latest :: (pre ++ r :: post)) cut none =
      Except.ok (some r) := by
  have hs := sortRevisions_eq_of_sorted hsorted
  have hnf : ∀ x ∈ pre, noFire (target_size_calc (latest.size : ℚ) cut)
      ((latest.size : ℚ) * (8 / 10)) ((latest.size : ℚ) * (18 / 10)) none x :=
    fun x hx => ⟨rfl, (hpre x hx).1, (hpre x hx).2.1, (hpre x hx).2.2⟩
  simp only [find_precut_revision, hs]
  rw [findLoop_append hnf, findLoop_cons]
  simp [cutoffFired, hlg, htgt]

/-- C1 witness: baseline 1000 bytes, not yet cut (target 1100); the history
with sizes `[1000, 1050, 1150, 900]` (newest first) returns the revision of
1150 bytes. -/
theorem C1_first_size_jump_returned_witness :
    find_precut_revision
      (⟨10, 1000, "c"⟩ :: ([⟨9, 1050, "p"⟩] ++ ⟨8, 1150, "r"⟩ :: [⟨7, 900, "q"⟩]))
      false none = Except.ok (some ⟨8, 1150, "r"⟩) :=
  C1_first_size_jump_returned ⟨10, 1000, "c"⟩ ⟨8, 1150, "r"⟩ [⟨9, 1050, "p"⟩]
    [⟨7, 900, "q"⟩] false
    (by simp [descSorted, List.chain'_cons, List.chain'_singleton])
    (by
      intro x hx
      simp only [List.mem_singleton] at hx
      subst hx
      norm_num [target_size_calc])
    (by norm_num) (by norm_num [target_size_calc])

/-- C2: a post-baseline revision whose size strictly exceeds
`stop_size_large = latest_size × 1.8` stops the walk immediately with no
match; the large-stop check precedes the target check, so such a revision is
never returned even though its size also exceeds `target_size`. -/
theorem C2_large_stop_returns_none (latest r : Revision)
    (pre post : List Revision) (cut : Bool) (co : Option Int)
    (hsorted : descSorted (latest :: (pre ++ r :: post)))
    (hpre : ∀ x ∈ pre, noFire (target_size_calc (latest.size : ℚ) cut)
      ((latest.size : ℚ) * (8 / 10)) ((latest.size : ℚ) * (18 / 10)) co x)
    (hco : cutoffFired co r = false)
    (hlg : (r.size : ℚ) > (latest.size : ℚ) * (18 / 10))
    (_htgt : (r.size : ℚ) > target_size_calc (latest.size : ℚ) cut) :
    find_precut_revision (latest :: (pre ++ r :: post)) cut co =
      Except.ok none := by
  have hs := sortRevisions_eq_of_sorted hsorted
  simp only [find_precut_revision, hs]
  rw [findLoop_append hpre, findLoop_cons]
  simp [hco, hlg]

/-- C2 witness: baseline 1000 bytes, not yet cut; history `[1000, 1900]`
returns no match even though 1900 also exceeds the 1100 target. -/
theorem C2_large_stop_returns_none_witness :
    find_precut_revision
      (⟨10, 1000, "c"⟩ :: ([] ++ ⟨9, 1900, "r"⟩ :: [])) false none =
      Except.ok none :=
  C2_large_stop_returns_none ⟨10, 1000, "c"⟩ ⟨9, 1900, "r"⟩ [] [] false none
    (by simp [descSorted, List.chain'_cons, List.chain'_singleton])
    (by simp) rfl (by norm_num) (by norm_num [target_size_calc])

/-- C3: a post-baseline revision whose size is strictly below
`stop_size_small = latest_size × 0.8`, reached before any other decisive
branch fires, stops the walk immediately with no match, whatever the sizes of
the older revisions. -/
theorem C3_small_stop_returns_none (latest r : Revision)
    (pre post : List Revision) (cut : Bool) (co : Option Int)
    (hsorted : descSorted (latest :: (pre ++ r :: post)))
    (hpre : ∀ x ∈ pre, noFire (target_size_calc (latest.size : ℚ) cut)
      ((latest.size : ℚ) * (8 / 10)) ((latest.size : ℚ) * (18 / 10)) co x)
    (hco : cutoffFired co r = false)
    (hsm : (r.size : ℚ) < (latest.size : ℚ) * (8 / 10)) :
    find_precut_revision (latest :: (pre ++ r :: post)) cut co =
      Except.ok none := by
  obtain ⟨h1, _, _, _, h5⟩ := threshold_bounds latest.size cut
  have hlg : ¬((r.size : ℚ) > (latest.size : ℚ) * (18 / 10)) := by linarith
  have htgt : ¬((r.size : ℚ) > target_size_calc (latest.size : ℚ) cut) := by
    linarith
  have hs := sortRevisions_eq_of_sorted hsorted
  simp only [find_precut_revision, hs]
  rw [findLoop_append hpre, findLoop_cons]
  simp [hco, hlg, htgt, hsm]

/-- C3 witness: baseline 1000 bytes, not yet cut; history `[1000, 750, 1500]`
returns no match — 750 is below the 800 small-stop and the walk never reaches
the 1500 revision. -/
theorem C3_small_stop_returns_none_witness :
    find_precut_revision
      (⟨10, 1000, "c"⟩ :: ([] ++ ⟨9, 750, "r"⟩ :: [⟨8, 1500, "q"⟩])) false none =
      Except.ok none :=
  C3_small_stop_returns_none ⟨10, 1000, "c"⟩ ⟨9, 750, "r"⟩ [] [⟨8, 1500, "q"⟩]
    false none (by simp [descSorted, List.chain'_cons, List.chain'_singleton])
    (by simp) rfl (by norm_num)

/-- C4: with a cutoff timestamp configured, the walk halts at the first
post-baseline revision strictly predating the cutoff, before that revision's
size is compared to any threshold, and the selector returns no match — even
if that revision or an older one would satisfy the target-size condition. -/
theorem C4_cutoff_halts (latest r : Revision) (pre post : List Revision)
    (cut : Bool) (t : Int)
    (hsorted : descSorted (latest :: (pre ++ r :: post)))
    (hpre : ∀ x ∈ pre, noFire (target_size_calc (latest.size : ℚ) cut)
      ((latest.size : ℚ) * (8 / 10)) ((latest.size : ℚ) * (18 / 10)) (some t) x)
    (hr : r.server_modified < t) :
    find_precut_revision (latest :: (pre ++ r :: post)) cut (some t) =
      Except.ok none := by
  have hs := sortRevisions_eq_of_sorted hsorted
  simp only [find_precut_revision, hs]
  rw [findLoop_append hpre, findLoop_cons]
  have hco : cutoffFired (some t) r = true := by
    simp [cutoffFired, hr]
  simp [hco]

/-- C4 witness: baseline 1000 bytes, cutoff at time 7; the second revision
(time 5, size 1150, which would satisfy the 1100 target) predates the cutoff,
so the selector returns no match. -/
theorem C4_cutoff_halts_witness :
    find_precut_revision
      (⟨10, 1000, "c"⟩ :: ([] ++ ⟨5, 1150, "r"⟩ :: [])) false (some 7) =
      Except.ok none :=
  C4_cutoff_halts ⟨10, 1000, "c"⟩ ⟨5, 1150, "r"⟩ [] [] false 7
    (by simp [descSorted, List.chain'_cons, List.chain'_singleton])
    (by simp) (by decide)

/-- C5 counterexample: with baseline 1000 and `already_cut = false`, the
history `[1000, 1800]` puts the second revision exactly at
`stop_size_large = 1000 × 1.8`.  The claim says a revision sized exactly at
`stop_size_large` continues the walk (which here would exhaust the history
and return no match); the code instead returns that revision, because
`1800 > target_size = 1100` fires. -/
theorem C5_boundary_counterexample :
    ((1800 : ℚ) = (1000 : ℚ) * (18 / 10)) ∧
    find_precut_revision [⟨10, 1000, "b"⟩, ⟨9, 1800, "a"⟩] false none =
      Except.ok (some ⟨9, 1800, "a"⟩) := by
  constructor
  · norm_num
  · norm_num [find_precut_revision, sortRevisions, insertRevDesc, findLoop,
      target_size_calc, cutoffFired]

/-- C5 amended: threshold comparisons are strict, so equality never triggers
the branch that owns the boundary: a revision sized exactly at `target_size`
or exactly at `stop_size_small` continues the walk (one exactly at
`stop_size_large` escapes the large-stop check but is then returned by the
target check whenever its size exceeds `target_size`); consequently every
history of identical sizes yields no match. -/
theorem C5_strict_thresholds :
    (∀ (t sm lg : ℚ) (co : Option Int) (r : Revision) (rest : List Revision),
      cutoffFired co r = false → (r.size : ℚ) = t → sm ≤ t → t ≤ lg →
      findLoop t sm lg co (r :: rest) = findLoop t sm lg co rest) ∧
    (∀ (t sm lg : ℚ) (co : Option Int) (r : Revision) (rest : List Revision),
      cutoffFired co r = false → (r.size : ℚ) = sm → sm ≤ t → t ≤ lg →
      findLoop t sm lg co (r :: rest) = findLoop t sm lg co rest) ∧
    (∀ (cut : Bool) (co : Option Int) (s : Nat) (rs : List Revision),
      rs ≠ [] → (∀ x ∈ rs, x.size = s) →
      find_precut_revision rs cut co = Except.ok none) := by
  refine ⟨?_, ?_, ?_⟩
  · intro t sm lg co r rest hco he hst htl
    exact findLoop_skip ⟨hco, by rw [he]; exact not_lt.mpr htl, by simp [he],
      by rw [he]; exact not_lt.mpr hst⟩
  · intro t sm lg co r rest hco he hst htl
    exact findLoop_skip ⟨hco, by rw [he]; exact not_lt.mpr (hst.trans htl),
      by rw [he]; exact not_lt.mpr hst, by simp [he]⟩
  · intro cut co s rs hne hall
    rcases hs : sortRevisions rs with _ | ⟨latest, rest⟩
    · exact absurd ((sortRevisions_eq_nil_iff rs).mp hs) hne
    · have hlat : latest.size = s :=
        hall latest ((mem_sortRevisions latest rs).mp (by simp [hs]))
      obtain ⟨h1, h2, h3, h4, h5⟩ := threshold_bounds s cut
      simp only [find_precut_revision, hs]
      rw [findLoop_eq_none]
      intro x hx
      have hxs : x.size = s :=
        hall x ((mem_sortRevisions x rs).mp (by simp [hs, hx]))
      rw [hxs, hlat]
      exact ⟨not_lt.mpr (h4.trans h2), not_lt.mpr h4, not_lt.mpr h3⟩

/-- C5 witness: the constant-size part at `already_cut = false`, no cutoff,
all revisions 5 bytes: no match. -/
theorem C5_strict_thresholds_witness :
    find_precut_revision [⟨10, 5, "b"⟩, ⟨9, 5, "a"⟩] false none =
      Except.ok none :=
  C5_strict_thresholds.2.2 false none 5 [⟨10, 5, "b"⟩, ⟨9, 5, "a"⟩]
    (by simp) (by simp)

/-- C10: the selector unconditionally reads the first revision's size as the
baseline, so the empty history is an `IndexError` (not the no-match result),
while every non-empty history produces a normal `Except.ok` outcome. -/
theorem C10_empty_history_errors (cut : Bool) (co : Option Int) :
    find_precut_revision [] cut co = Except.error "list index out of range" ∧
    ∀ rs : List Revision, rs ≠ [] →
      ∃ o, find_precut_revision rs cut co = Except.ok o := by
  refine ⟨rfl, ?_⟩
  intro rs hne
  rcases hs : sortRevisions rs with _ | ⟨latest, rest⟩
  · exact absurd ((sortRevisions_eq_nil_iff rs).mp hs) hne
  · refine ⟨findLoop (target_size_calc (latest.size : ℚ) cut)
      ((latest.size : ℚ) * (8 / 10)) ((latest.size : ℚ) * (18 / 10)) co rest, ?_⟩
    simp only [find_precut_revision, hs]

/-- C10 witness: the empty history errs while a one-entry history is `ok`. -/
theorem C10_empty_history_errors_witness :
    find_precut_revision [] false none =
      Except.error "list index out of range" ∧
    ∃ o, find_precut_revision [⟨0, 0, "x"⟩] false none = Except.ok o :=
  ⟨(C10_empty_history_errors false none).1,
    (C10_empty_history_errors false none).2 [⟨0, 0, "x"⟩] (by simp)⟩

/-! ## Claims about the file classifier -/

theorem dot_underscore_starts_dot {l : List Char}
    (h : (['.', '_']).isPrefixOf l = true) : (['.']).isPrefixOf l = true := by
  cases l with
  | nil => simp [List.isPrefixOf] at h
  | cons c t =>
    simp only [List.isPrefixOf, Bool.and_eq_true, beq_iff_eq] at h
    simp only [List.isPrefixOf, Bool.and_eq_true, beq_iff_eq]
    exact ⟨h.1, trivial⟩

theorem not_isEmpty_filter_eq_any (l : List (List Char)) (f : List Char → Bool) :
    (!(l.filter f).isEmpty) = l.any f := by
  induction l with
  | nil => rfl
  | cons a t ih =>
    by_cases hfa : f a <;>
      simp [List.filter_cons, hfa, ← ih, List.any_cons]

theorem is_video_file_iff (p : List Char) :
    is_video_file p = true ↔
      ((∃ e ∈ VIDEO_EXTENSIONS, ('.' :: e).isSuffixOf p = true) ∧
        ¬ (['.', '_']).isPrefixOf (basename p) = true) := by
  unfold is_video_file
  by_cases h : (['.', '_']).isPrefixOf (basename p) = true
  · simp [h]
  · rw [if_neg h, not_isEmpty_filter_eq_any]
    simp [List.any_eq_true, h]

/-- C6 counterexample: the hidden file `.a.mkv` (basename starts with `.` but
not with `._`) is yielded when passed directly as a file argument, though the
claim says every candidate's basename must not begin with `.`. -/
theorem C6_direct_hidden_counterexample :
    yields_direct_file ['.', 'a', '.', 'm', 'k', 'v'] = true ∧
    (['.']).isPrefixOf (basename ['.', 'a', '.', 'm', 'k', 'v']) = true := by
  decide

/-- C6 amended: a traversal-discovered file is yielded iff its extension is
one of `mkv`, `ts`, `mp4`, `mov` (case-sensitive) and its basename does not
begin with `.` (which covers `._`); a direct file argument is yielded iff its
extension matches and its basename does not begin with `._` — the generic
hidden-file prefix `.` alone does not exclude a direct argument. -/
theorem C6_classifier_characterization (p : List Char) :
    (yields_walked_file p = true ↔
      ((∃ e ∈ VIDEO_EXTENSIONS, ('.' :: e).isSuffixOf p = true) ∧
        ¬ (['.']).isPrefixOf (basename p) = true)) ∧
    (yields_direct_file p = true ↔
      ((∃ e ∈ VIDEO_EXTENSIONS, ('.' :: e).isSuffixOf p = true) ∧
        ¬ (['.', '_']).isPrefixOf (basename p) = true)) := by
  constructor
  · unfold yields_walked_file
    by_cases hd : (['.']).isPrefixOf (basename p) = true
    · simp [hd]
    · have hdu : ¬ (['.', '_']).isPrefixOf (basename p) = true :=
        fun hc => hd (dot_underscore_starts_dot hc)
      simp [hd, is_video_file_iff, hdu]
  · unfold yields_direct_file
    exact is_video_file_iff p

/-! ## Claims about the derived remote path -/

theorem pyReplaceGo_skip (pat rep : List Char) :
    ∀ (l t : List Char),
      pyReplaceGo pat rep l.length (l ++ t) = pyReplaceGo pat rep 0 t := by
  intro l
  induction l with
  | nil => intro t; rfl
  | cons c cs ih => intro t; exact ih t

theorem pyReplace_cons_match {pat rep : List Char} (hne : pat ≠ [])
    (t : List Char) :
    pyReplaceGo pat rep 0 (pat ++ t) = rep ++ pyReplaceGo pat rep 0 t := by
  cases pat with
  | nil => exact absurd rfl hne
  | cons p ps =>
    have hpre : (p :: ps).isPrefixOf ((p :: ps) ++ t) = true :=
      List.isPrefixOf_iff_prefix.mpr (List.prefix_append _ _)
    show (if (p :: ps).isPrefixOf (p :: (ps ++ t)) ∧ (p :: ps) ≠ [] then
        rep ++ pyReplaceGo (p :: ps) rep ((p :: ps).length - 1) (ps ++ t)
      else p :: pyReplaceGo (p :: ps) rep 0 (ps ++ t)) = _
    rw [if_pos ⟨hpre, hne⟩]
    have : (p :: ps).length - 1 = ps.length := by simp
    rw [this, pyReplaceGo_skip]

theorem pyReplace_not_occurs {pat rep : List Char} :
    ∀ {s : List Char}, occursIn pat s = false → pyReplaceGo pat rep 0 s = s := by
  intro s
  induction s with
  | nil => intro _; rfl
  | cons c t ih =>
    intro h
    rw [occursIn, Bool.or_eq_false_iff] at h
    show (if pat.isPrefixOf (c :: t) ∧ pat ≠ [] then
        rep ++ pyReplaceGo pat rep (pat.length - 1) t
      else c :: pyReplaceGo pat rep 0 t) = c :: t
    rw [if_neg, ih h.2]
    rintro ⟨h1, _⟩
    rw [h.1] at h1
    exact Bool.false_ne_true h1

/-- C7 counterexample: with media root `/m` and the local path
`/m/a/m/x.mkv`, the code's `str.replace` rewrites both occurrences of `/m`,
producing `/Media/a/Media/x.mkv` instead of the leading-prefix substitution
`/Media/a/m/x.mkv` the claim describes. -/
theorem C7_replace_all_counterexample :
    ("/m".toList ++ "/a/m/x.mkv".toList = "/m/a/m/x.mkv".toList) ∧
    derive_dropbox_path "/m".toList "/m/a/m/x.mkv".toList ≠
      mediaRootChars ++ "/a/m/x.mkv".toList ∧
    derive_dropbox_path "/m".toList "/m/a/m/x.mkv".toList =
      "/Media/a/Media/x.mkv".toList := by
  decide

/-- C7 amended: the derived remote path replaces every occurrence of the
media root with `/Media`; when the media root occurs only as the leading
prefix of the local path, this coincides with prefix substitution — the
leading root becomes `/Media` and the remainder is unchanged. -/
theorem C7_replace_as_root_substitution (base rest : List Char)
    (hne : base ≠ []) (hocc : occursIn base rest = false) :
    derive_dropbox_path base (base ++ rest) = mediaRootChars ++ rest := by
  unfold derive_dropbox_path pyReplace
  rw [pyReplace_cons_match hne, pyReplace_not_occurs hocc]

/-- C7 witness: `/m/a/x.mkv` under media root `/m` maps to `/Media/a/x.mkv`. -/
theorem C7_replace_as_root_substitution_witness :
    derive_dropbox_path "/m".toList ("/m".toList ++ "/a/x.mkv".toList) =
      mediaRootChars ++ "/a/x.mkv".toList :=
  C7_replace_as_root_substitution "/m".toList "/a/x.mkv".toList (by decide)
    (by decide)

/-! ## Claims about the restore orchestrator -/

theorem find_precut_ok_of_ne_nil {rs : List Revision} (hne : rs ≠ [])
    (cut : Bool) (co : Option Int) :
    ∃ o, find_precut_revision rs cut co = Except.ok o := by
  rcases hs : sortRevisions rs with _ | ⟨latest, rest⟩
  · exact absurd ((sortRevisions_eq_nil_iff rs).mp hs) hne
  · refine ⟨findLoop (target_size_calc (latest.size : ℚ) cut)
      ((latest.size : ℚ) * (8 / 10)) ((latest.size : ℚ) * (18 / 10)) co rest, ?_⟩
    simp only [find_precut_revision, hs]

theorem process_one_ok (ops : RemoteOps) (dry_run : Bool) (mb : List Char)
    (co : Option Int) (cand : List Char × Bool)
    (hne : ops.list_entries (derive_dropbox_path mb cand.1) ≠ []) :
    ∃ tr, process_one ops dry_run mb co cand = Except.ok tr ∧
      RemoteCall.list_revisions (derive_dropbox_path mb cand.1) ∈ tr := by
  obtain ⟨o, ho⟩ := find_precut_ok_of_ne_nil hne cand.2 co
  simp only [process_one, ho]
  cases o with
  | none => exact ⟨_, rfl, by simp⟩
  | some r => exact ⟨_, rfl, by simp⟩

theorem process_one_dry (ops : RemoteOps) (mb : List Char) (co : Option Int)
    (cand : List Char × Bool)
    (hne : ops.list_entries (derive_dropbox_path mb cand.1) ≠ []) :
    process_one ops true mb co cand =
      Except.ok [RemoteCall.list_revisions (derive_dropbox_path mb cand.1)] := by
  obtain ⟨o, ho⟩ := find_precut_ok_of_ne_nil hne cand.2 co
  simp only [process_one, ho]
  cases o <;> simp

/-- C8: every `ApiError` raised by the restore call or by either companion
deletion is caught inside the per-candidate body: whatever errors the remote
service produces (any `restore_result` / `delete_result` oracle), the batch
finishes with exit code 0 and still consults the revision history of every
candidate, so processing always continues with the next file. -/
theorem C8_api_errors_contained (ops : RemoteOps) (mb : List Char)
    (co : Option Int) (cands : List (List Char × Bool))
    (hne : ∀ p, ops.list_entries p ≠ []) :
    ∃ tr, comcut_restore_loop ops false mb co cands = Except.ok (0, tr) ∧
      ∀ c ∈ cands,
        RemoteCall.list_revisions (derive_dropbox_path mb c.1) ∈ tr := by
  induction cands with
  | nil => exact ⟨[], rfl, by simp⟩
  | cons c cs ih =>
    obtain ⟨tr1, h1, hmem1⟩ := process_one_ok ops false mb co c (hne _)
    obtain ⟨tr2, h2, hmem2⟩ := ih
    refine ⟨tr1 ++ tr2, ?_, ?_⟩
    · simp only [comcut_restore_loop, h1, h2]
    · intro d hd
      rcases List.mem_cons.mp hd with h | h
      · exact h ▸ List.mem_append_left _ hmem1
      · exact List.mem_append_right _ (hmem2 d h)

/-- C8 witness: one candidate, a remote service whose restore and deletes all
raise `ApiError`; the batch still ends `Except.ok` with exit code 0. -/
theorem C8_api_errors_contained_witness :
    ∃ tr, comcut_restore_loop
        ⟨fun _ => [⟨10, 1000, "r1"⟩, ⟨9, 1200, "r0"⟩],
         fun _ _ => some "ApiError", fun _ => some "ApiError"⟩
        false "/m".toList none [("/m/a.mkv".toList, false)] =
        Except.ok (0, tr) ∧
      ∀ c ∈ [("/m/a.mkv".toList, false)],
        RemoteCall.list_revisions (derive_dropbox_path "/m".toList c.1) ∈ tr :=
  C8_api_errors_contained _ _ _ _ (fun _ => by simp)

/-- C9: in dry-run mode the orchestrator still derives every candidate's
remote path and runs the selector on its listed history, but the remote-call
trace contains exactly the `list_revisions` reads — no restore and no
deletion — and the run returns exit code 0. -/
theorem C9_dry_run_reads_only (ops : RemoteOps) (mb : List Char)
    (co : Option Int) (cands : List (List Char × Bool))
    (hne : ∀ p, ops.list_entries p ≠ []) :
    comcut_restore_loop ops true mb co cands =
      Except.ok (0, cands.map
        (fun c => RemoteCall.list_revisions (derive_dropbox_path mb c.1))) := by
  induction cands with
  | nil => rfl
  | cons c cs ih =>
    have h1 := process_one_dry ops mb co c (hne _)
    simp only [comcut_restore_loop, h1, ih, List.map_cons]
    rfl

/-- C9 witness: dry-run over one candidate issues exactly one
`list_revisions` read and exits 0. -/
theorem C9_dry_run_reads_only_witness :
    comcut_restore_loop
      ⟨fun _ => [⟨10, 1000, "r1"⟩, ⟨9, 1200, "r0"⟩],
       fun _ _ => none, fun _ => none⟩
      true "/m".toList none [("/m/a.mkv".toList, false)] =
      Except.ok (0, [RemoteCall.list_revisions
        (derive_dropbox_path "/m".toList "/m/a.mkv".toList)]) :=
  C9_dry_run_reads_only _ _ _ _ (fun _ => by simp)
